import Mathlib

/-!
Verification of the repository-synchronization engine of `bot/git_sync.py`
(tg_obsidian_sync_bot).  The Python code is shallowly embedded: file contents
are `List Char`, the conflict-marker regular expression
`<<<<<<< HEAD\n(.*?)=======\n(.*?)>>>>>>> [^\n]+` is embedded as an explicit
leftmost scanner with lazy groups, and the stateful engine paths are embedded
as pure functions from an environment (outcomes of the external git commands)
to an action trace.
-/

/-! ## The conflict-marker scanner (embedding of the regex in `_parse_conflicts`
and `_apply_resolutions`). -/

/-- The local-start marker of the regex literal: seven less-than signs,
a space, HEAD and a newline. -/
def headerMark : List Char :=
  ['<', '<', '<', '<', '<', '<', '<', ' ', 'H', 'E', 'A', 'D', '\n']

/-- The separator marker literal: seven equals signs and a newline. -/
def sepMark : List Char :=
  ['=', '=', '=', '=', '=', '=', '=', '\n']

/-- The remote-end marker literal: seven greater-than signs and a space;
the regex requires it to be followed by at least one non-newline character. -/
def endMark : List Char :=
  ['>', '>', '>', '>', '>', '>', '>', ' ']

/-- `isPre p s` holds when `p` is an initial segment of `s`
(the anchored-match step of the scanner). -/
def isPre : List Char → List Char → Bool
  | [], _ => true
  | _ :: _, [] => false
  | a :: p, b :: s => a = b && isPre p s

/-- `splitFirst needle s` finds the leftmost occurrence of `needle` in `s`,
returning the text before it and the text after it; this is the semantics of
a lazy group followed by the literal `needle` in the regex. -/
def splitFirst (needle : List Char) : List Char → Option (List Char × List Char)
  | [] => if needle = [] then some ([], []) else none
  | c :: cs =>
    if isPre needle (c :: cs) then some ([], (c :: cs).drop needle.length)
    else (splitFirst needle cs).map fun pq => (c :: pq.1, pq.2)

theorem isPre_append_self (p t : List Char) : isPre p (p ++ t) = true := by
  induction p with
  | nil => rfl
  | cons a p ih => simp [isPre, ih]

theorem isPre_iff_take (p s : List Char) : isPre p s = true ↔ s.take p.length = p := by
  induction p generalizing s with
  | nil => simp [isPre]
  | cons a p ih =>
    cases s with
    | nil => simp [isPre]
    | cons b s =>
      simp only [isPre, Bool.and_eq_true, decide_eq_true_eq, List.length_cons,
        List.take_succ_cons, List.cons.injEq, ih]
      tauto

theorem splitFirst_sound {needle s p q : List Char}
    (h : splitFirst needle s = some (p, q)) : s = p ++ needle ++ q := by
  induction s generalizing p q with
  | nil =>
    by_cases hn : needle = [] <;> simp [splitFirst, hn] at h
    rw [h.1, h.2, hn]; rfl
  | cons c cs ih =>
    by_cases hp : isPre needle (c :: cs) = true
    · rw [isPre_iff_take] at hp
      simp only [splitFirst, isPre_iff_take, hp, if_pos, Option.some.injEq, Prod.mk.injEq] at h
      obtain ⟨h1, h2⟩ := h
      conv_lhs => rw [← List.take_append_drop needle.length (c :: cs)]
      rw [hp, ← h1, ← h2]; rfl
    · simp only [splitFirst, hp, Bool.false_eq_true, if_false, Option.map_eq_some'] at h
      obtain ⟨⟨p', q'⟩, hpq, h2⟩ := h
      have := ih hpq
      simp only [Prod.mk.injEq] at h2
      rw [← h2.1, ← h2.2, this]; rfl

theorem splitFirst_none {needle s : List Char} (h : splitFirst needle s = none) :
    ∀ i, isPre needle (s.drop i) = false := by
  induction s with
  | nil =>
    intro i
    by_cases hn : needle = [] <;> simp [splitFirst, hn] at h ⊢
    cases needle with
    | nil => exact absurd rfl hn
    | cons a p => simp [isPre]
  | cons c cs ih =>
    intro i
    by_cases hp : isPre needle (c :: cs) = true
    · simp [splitFirst, hp] at h
    · simp only [splitFirst, hp, Bool.false_eq_true, if_false, Option.map_eq_none'] at h
      cases i with
      | zero => simpa using Bool.eq_false_iff.mpr hp
      | succ i => exact ih h i

/-- `needle` never occurs as a contiguous run inside `s`. -/
def NoOcc (needle s : List Char) : Prop := splitFirst needle s = none

instance (needle s : List Char) : Decidable (NoOcc needle s) := by
  unfold NoOcc; infer_instance

/-- `needle` has no nonempty proper border (no proper initial segment that is
also a final segment).  Each of the three marker literals satisfies this. -/
def BorderFree (needle : List Char) : Prop :=
  ∀ k, k < needle.length → 0 < k →
    needle.drop k ≠ needle.take (needle.length - k)

theorem headerMark_borderFree : BorderFree headerMark := by
  unfold BorderFree; decide

theorem sepMark_borderFree : BorderFree sepMark := by
  unfold BorderFree; decide

theorem endMark_borderFree : BorderFree endMark := by
  unfold BorderFree; decide

/-- If `needle` does not occur in `pre` and has no border, then in
`pre ++ needle ++ rest` no occurrence of `needle` starts before `pre` ends. -/
theorem noEarly_of_noOcc {needle pre : List Char} (rest : List Char)
    (hbf : BorderFree needle) (hno : NoOcc needle pre) :
    ∀ i < pre.length, isPre needle ((pre ++ needle ++ rest).drop i) = false := by
  intro i hi
  by_contra hmem
  rw [Bool.not_eq_false] at hmem
  rw [List.append_assoc, List.drop_append_eq_append_drop,
    Nat.sub_eq_zero_of_le (le_of_lt hi), List.drop_zero] at hmem
  set d := pre.drop i with hd
  have hdlen : d.length = pre.length - i := by simp [hd]
  have hdpos : 0 < d.length := by omega
  rw [isPre_iff_take] at hmem
  by_cases hc : needle.length ≤ d.length
  · -- the occurrence lies entirely inside `pre`
    rw [List.take_append_eq_append_take, Nat.sub_eq_zero_of_le hc, List.take_zero,
      List.append_nil] at hmem
    have : isPre needle (pre.drop i) = true := by
      rw [isPre_iff_take, ← hd, hmem]
    rw [splitFirst_none hno i] at this
    exact Bool.false_ne_true this
  · -- the occurrence would cross the boundary, giving `needle` a border
    push_neg at hc
    rw [List.take_append_eq_append_take] at hmem
    have hdtake : d.take needle.length = d := List.take_of_length_le (le_of_lt hc)
    rw [hdtake] at hmem
    have hsplit : needle.drop d.length = (needle ++ rest).take (needle.length - d.length) := by
      conv_lhs => rw [← hmem]
      rw [List.drop_append_eq_append_drop, Nat.sub_self, List.drop_zero,
        List.drop_of_length_le (le_refl d.length), List.nil_append]
    rw [List.take_append_eq_append_take, Nat.sub_eq_zero_of_le (Nat.sub_le _ _),
      List.take_zero, List.append_nil] at hsplit
    exact hbf d.length hc hdpos hsplit

/-- If no occurrence of `needle` starts inside `pre`, the leftmost split of
`pre ++ needle ++ rest` is exactly at the marked occurrence. -/
theorem splitFirst_append {needle : List Char} (hne : needle ≠ []) :
    ∀ (pre rest : List Char),
    (∀ i < pre.length, isPre needle ((pre ++ needle ++ rest).drop i) = false) →
    splitFirst needle (pre ++ needle ++ rest) = some (pre, rest) := by
  intro pre
  induction pre with
  | nil =>
    intro rest _
    obtain ⟨a, n, rfl⟩ := List.exists_cons_of_ne_nil hne
    show splitFirst (a :: n) ((a :: n) ++ rest) = _
    rw [List.cons_append, splitFirst]
    rw [← List.cons_append, isPre_append_self]
    simp only [if_pos]
    rw [List.drop_left]
  | cons c cs ih =>
    intro rest hno
    have h0 := hno 0 (by simp)
    rw [List.drop_zero] at h0
    show splitFirst needle (c :: (cs ++ needle ++ rest)) = _
    rw [splitFirst]
    simp only [List.cons_append] at h0
    rw [h0]
    simp only [Bool.false_eq_true, if_false]
    rw [ih rest fun i hi => by simpa using hno (i + 1) (by simpa using hi)]
    rfl

/-- The anchored end-marker test of the regex tail
(the literal end marker followed by at least one non-newline character). -/
def validEndAt (s : List Char) : Bool :=
  isPre endMark s &&
    (match s.drop endMark.length with
     | [] => false
     | c :: _ => c != '\n')

/-- Leftmost split at an end marker that is followed by a non-newline
character (lazy second group of the regex). -/
def splitFirstEnd : List Char → Option (List Char × List Char)
  | [] => none
  | c :: cs =>
    if validEndAt (c :: cs) then some ([], (c :: cs).drop endMark.length)
    else (splitFirstEnd cs).map fun pq => (c :: pq.1, pq.2)

theorem splitFirstEnd_sound {s p q : List Char}
    (h : splitFirstEnd s = some (p, q)) : s = p ++ endMark ++ q := by
  induction s generalizing p q with
  | nil => simp [splitFirstEnd] at h
  | cons c cs ih =>
    by_cases hv : validEndAt (c :: cs) = true
    · simp only [splitFirstEnd, hv, if_pos, Option.some.injEq, Prod.mk.injEq] at h
      have hp : isPre endMark (c :: cs) = true := by
        have := hv; unfold validEndAt at this
        exact (Bool.and_eq_true _ _).mp this |>.1
      rw [isPre_iff_take] at hp
      conv_lhs => rw [← List.take_append_drop endMark.length (c :: cs)]
      rw [hp, ← h.1, ← h.2]; rfl
    · simp only [splitFirstEnd, hv, Bool.false_eq_true, if_false, Option.map_eq_some'] at h
      obtain ⟨⟨p', q'⟩, hpq, h2⟩ := h
      have := ih hpq
      simp only [Prod.mk.injEq] at h2
      rw [← h2.1, ← h2.2, this]; rfl

theorem splitFirstEnd_append (pre rest : List Char)
    (hval : validEndAt (endMark ++ rest) = true)
    (hno : ∀ i < pre.length, isPre endMark ((pre ++ endMark ++ rest).drop i) = false) :
    splitFirstEnd (pre ++ endMark ++ rest) = some (pre, rest) := by
  induction pre with
  | nil =>
    show splitFirstEnd ([] ++ endMark ++ rest) = _
    rw [List.nil_append]
    have hne : endMark ++ rest ≠ [] := by simp [endMark]
    obtain ⟨a, t, hat⟩ := List.exists_cons_of_ne_nil hne
    rw [hat, splitFirstEnd, ← hat, hval]
    simp only [if_pos]
    rw [List.drop_left]
  | cons c cs ih =>
    have h0 := hno 0 (by simp)
    rw [List.drop_zero] at h0
    show splitFirstEnd (c :: (cs ++ endMark ++ rest)) = _
    rw [splitFirstEnd]
    have hv : validEndAt (c :: (cs ++ endMark ++ rest)) = false := by
      unfold validEndAt
      simp only [List.cons_append] at h0
      rw [h0]; rfl
    rw [hv]
    simp only [Bool.false_eq_true, if_false]
    rw [ih fun i hi => by simpa using hno (i + 1) (by simpa using hi)]
    rfl

theorem takeWhile_append_stop {p : Char → Bool} {l : List Char} (c : Char) (r : List Char)
    (hl : ∀ a ∈ l, p a = true) (hc : p c = false) :
    (l ++ c :: r).takeWhile p = l := by
  induction l with
  | nil => simp [List.takeWhile_cons, hc]
  | cons a l ih =>
    have ha : p a = true := hl a (by simp)
    simp only [List.cons_append, List.takeWhile_cons, ha, if_true]
    rw [ih fun b hb => hl b (by simp [hb])]

theorem dropWhile_append_stop {p : Char → Bool} {l : List Char} (c : Char) (r : List Char)
    (hl : ∀ a ∈ l, p a = true) (hc : p c = false) :
    (l ++ c :: r).dropWhile p = c :: r := by
  induction l with
  | nil => simp [List.dropWhile_cons, hc]
  | cons a l ih =>
    have ha : p a = true := hl a (by simp)
    simp only [List.cons_append, List.dropWhile_cons, ha, if_true]
    exact ih fun b hb => hl b (by simp [hb])

/-- One attempted match of the regex
`<<<<<<< HEAD\n(.*?)=======\n(.*?)>>>>>>> [^\n]+` against `s` under Python's
leftmost-match backtracking semantics: the earliest local-start marker from
which a separator and then a valid end marker can still be found, lazy groups
taking the nearest such continuation, and the final `[^\n]+` matching
greedily.  Returns the text before the match, the two captured groups, the
matched end-marker label, and the text after the match (the label's trailing
newline, if any, is not consumed, exactly as in the parse pattern). -/
def matchConflict (s : List Char) :
    Option (List Char × List Char × List Char × List Char × List Char) :=
  (splitFirst headerMark s).bind fun pt =>
    (splitFirst sepMark pt.2).bind fun cu =>
      (splitFirstEnd cu.2).map fun iv =>
        (pt.1, cu.1, iv.1, iv.2.takeWhile (fun c => c != '\n'),
          iv.2.dropWhile (fun c => c != '\n'))

theorem length_dropWhile_le (p : Char → Bool) (l : List Char) :
    (l.dropWhile p).length ≤ l.length := by
  induction l with
  | nil => simp [List.dropWhile]
  | cons a l ih =>
    rw [List.dropWhile_cons]
    split
    · simp only [List.length_cons]
      omega
    · exact le_refl _

theorem matchConflict_shrink {s pre cur inc lab rest : List Char}
    (h : matchConflict s = some (pre, cur, inc, lab, rest)) :
    rest.length < s.length := by
  unfold matchConflict at h
  cases h1 : splitFirst headerMark s with
  | none => rw [h1] at h; simp at h
  | some pt =>
  obtain ⟨p, t⟩ := pt
  rw [h1] at h
  simp only [Option.some_bind] at h
  cases h2 : splitFirst sepMark t with
  | none => rw [h2] at h; simp at h
  | some cu =>
  obtain ⟨c, u⟩ := cu
  rw [h2] at h
  simp only [Option.some_bind] at h
  cases h3 : splitFirstEnd u with
  | none => rw [h3] at h; simp at h
  | some iv =>
  obtain ⟨i, v⟩ := iv
  rw [h3] at h
  simp only [Option.map_some', Option.some.injEq, Prod.mk.injEq] at h
  obtain ⟨rfl, rfl, rfl, rfl, rfl⟩ := h
  have e1 := congrArg List.length (splitFirst_sound h1)
  have e2 := congrArg List.length (splitFirst_sound h2)
  have e3 := congrArg List.length (splitFirstEnd_sound h3)
  rw [List.length_append, List.length_append] at e1 e2 e3
  have m1 : headerMark.length = 13 := rfl
  have m2 : sepMark.length = 8 := rfl
  have m3 : endMark.length = 8 := rfl
  have l4 := length_dropWhile_le (fun c => c != '\n') v
  omega

/-- Embedding of `GitSync._parse_conflicts`'s group extraction: the ordered
list of `(current, incoming)` group pairs produced by iterating the regex over
the file content (`pattern.finditer`), each successive search resuming where
the previous match ended. -/
def parseConflictPairs (s : List Char) : List (List Char × List Char) :=
  match h : matchConflict s with
  | none => []
  | some (_, cur, inc, _, rest) => (cur, inc) :: parseConflictPairs rest
termination_by s.length
decreasing_by exact matchConflict_shrink h

/-- The optional trailing newline `\n?` at the end of the apply-time pattern:
the greedy `[^\n]+` stops at a newline or at the end of input, so the optional
item consumes the next character exactly when it is a newline. -/
def chopNl (rest : List Char) : List Char :=
  if rest.head? = some '\n' then rest.drop 1 else rest

theorem chopNl_length_le (rest : List Char) : (chopNl rest).length ≤ rest.length := by
  unfold chopNl
  split
  · simp
  · exact le_refl _

/-- Embedding of the match positions computed by `pattern.finditer` inside
`GitSync._apply_resolutions`: the apply-time pattern additionally consumes an
optional trailing newline after the end-marker label.  Returns the list of
start and end offset pairs of each match, `ofs` being the offset of `s`
within the whole file. -/
def applyMatchesFrom (ofs : Nat) (s : List Char) : List (Nat × Nat) :=
  match h : matchConflict s with
  | none => []
  | some (pre, _, _, _, rest) =>
    (ofs + pre.length, ofs + (s.length - (chopNl rest).length)) ::
      applyMatchesFrom (ofs + (s.length - (chopNl rest).length)) (chopNl rest)
termination_by s.length
decreasing_by
  have h1 := matchConflict_shrink h
  have h2 := chopNl_length_le rest
  omega

/-! ## Data model: conflict blocks (embedding of the `ConflictBlock` dataclass;
the fresh random uuid hex ids are abstracted by an arbitrary injection-free
supply `idOf` from the block's position in the parse). -/

structure ConflictBlock where
  id : Nat
  file_path : List Char
  block_index : Nat
  current : List Char
  incoming : List Char
  deriving DecidableEq, Repr

/-- The `enumerate`-driven construction of `ConflictBlock`s from the regex
group pairs in `GitSync._parse_conflicts`, starting at index `i`. -/
def mkBlocksFrom (idOf : Nat → Nat) (file_path : List Char) (i : Nat) :
    List (List Char × List Char) → List ConflictBlock
  | [] => []
  | (cur, inc) :: rest =>
    ⟨idOf i, file_path, i, cur, inc⟩ :: mkBlocksFrom idOf file_path (i + 1) rest

/-- Embedding of `GitSync._parse_conflicts`:
one `ConflictBlock` per regex match, numbered by order of appearance. -/
def parse_conflicts (idOf : Nat → Nat) (content : List Char) (file_path : List Char) :
    List ConflictBlock :=
  mkBlocksFrom idOf file_path 0 (parseConflictPairs content)

/-! ## Well-formed conflict files.  A well-formed conflict file alternates
marker-free separating text with complete conflict blocks; this is the
precondition of the parsing round-trip claim. -/

/-- The source text of one well-formed conflict block before it is embedded in
a file: local text, remote text, and the free-form end-marker label. -/
structure RawBlock where
  cur : List Char
  inc : List Char
  label : List Char
  deriving DecidableEq, Repr

/-- The on-disk rendering of a well-formed conflict block:
start marker, local text, separator, remote text, end marker with label. -/
def blockText (r : RawBlock) : List Char :=
  headerMark ++ r.cur ++ sepMark ++ r.inc ++ endMark ++ r.label ++ ['\n']

/-- A conflicted file: leading text, then alternately one block and the text
following it. -/
def buildContent (first : List Char) : List (RawBlock × List Char) → List Char
  | [] => first
  | (r, seg) :: rest => first ++ blockText r ++ buildContent seg rest

/-- Well-formedness of one block: the local text does not contain the
separator marker, the remote text does not contain the end marker, and the
label is a nonempty newline-free line tail. -/
def WfRaw (r : RawBlock) : Prop :=
  NoOcc sepMark r.cur ∧ NoOcc endMark r.inc ∧ r.label ≠ [] ∧ '\n' ∉ r.label

/-- Well-formedness of a whole conflicted file: every separating text segment
is free of the local-start marker and every block is well-formed. -/
def WfBuild (first : List Char) (L : List (RawBlock × List Char)) : Prop :=
  NoOcc headerMark first ∧ ∀ p ∈ L, WfRaw p.1 ∧ NoOcc headerMark p.2

instance (r : RawBlock) : Decidable (WfRaw r) := by
  unfold WfRaw; infer_instance

instance (first : List Char) (L : List (RawBlock × List Char)) :
    Decidable (WfBuild first L) := by
  unfold WfBuild
  have : DecidablePred fun p : RawBlock × List Char => WfRaw p.1 ∧ NoOcc headerMark p.2 :=
    fun p => by infer_instance
  infer_instance

theorem noOcc_cons {needle s : List Char} (c : Char)
    (hno : NoOcc needle s) (hc : isPre needle (c :: s) = false) :
    NoOcc needle (c :: s) := by
  unfold NoOcc at hno ⊢
  rw [splitFirst, hc]
  simp [hno]

/-- A single well-formed block after marker-free leading text is matched
exactly, with the label's trailing newline left unconsumed. -/
theorem matchConflict_block (r : RawBlock) (hr : WfRaw r) (pre rest : List Char)
    (hpre : NoOcc headerMark pre) :
    matchConflict (pre ++ blockText r ++ rest)
      = some (pre, r.cur, r.inc, r.label, '\n' :: rest) := by
  obtain ⟨hcur, hinc, hlabne, hlabnl⟩ := hr
  have hshape : pre ++ blockText r ++ rest
      = pre ++ headerMark ++
          (r.cur ++ sepMark ++ (r.inc ++ endMark ++ (r.label ++ '\n' :: rest))) := by
    simp [blockText, List.append_assoc]
  unfold matchConflict
  rw [hshape,
    splitFirst_append (by simp [headerMark]) pre _
      (noEarly_of_noOcc _ headerMark_borderFree hpre),
    Option.some_bind]
  rw [splitFirst_append (by simp [sepMark]) r.cur _
      (noEarly_of_noOcc _ sepMark_borderFree hcur),
    Option.some_bind]
  have hval : validEndAt (endMark ++ (r.label ++ '\n' :: rest)) = true := by
    unfold validEndAt
    rw [isPre_append_self, List.drop_left]
    obtain ⟨a, lab', hlab⟩ := List.exists_cons_of_ne_nil hlabne
    have ha : a ≠ '\n' := fun hh => hlabnl (by rw [hlab]; exact hh ▸ List.mem_cons_self a lab')
    rw [hlab]
    simp [List.cons_append, ha]
  rw [splitFirstEnd_append r.inc _ hval
      (noEarly_of_noOcc _ endMark_borderFree hinc),
    Option.map_some']
  have hmem : ∀ a ∈ r.label, (a != '\n') = true := by
    intro a ha
    simp only [bne_iff_ne, ne_eq]
    exact fun hh => hlabnl (hh ▸ ha)
  have hstop : ('\n' != '\n') = false := by simp
  rw [takeWhile_append_stop '\n' rest hmem hstop,
    dropWhile_append_stop '\n' rest hmem hstop]

/-- On marker-free text the regex finds no match. -/
theorem matchConflict_none {s : List Char} (hno : NoOcc headerMark s) :
    matchConflict s = none := by
  unfold matchConflict
  rw [hno]
  rfl

theorem parseConflictPairs_eq_none {s : List Char} (h : matchConflict s = none) :
    parseConflictPairs s = [] := by
  rw [parseConflictPairs]
  split
  · rfl
  · rename_i heq
    rw [h] at heq
    exact absurd heq (by simp)

theorem parseConflictPairs_eq_some {s pre cur inc lab rest : List Char}
    (h : matchConflict s = some (pre, cur, inc, lab, rest)) :
    parseConflictPairs s = (cur, inc) :: parseConflictPairs rest := by
  rw [parseConflictPairs]
  split
  · rename_i heq
    rw [h] at heq
    exact absurd heq (by simp)
  · rename_i p' c' i' l' r' heq
    rw [h] at heq
    simp only [Option.some.injEq, Prod.mk.injEq] at heq
    obtain ⟨-, h2, h3, -, h5⟩ := heq
    rw [h2, h3, h5]

/-- The parse of a well-formed conflict file returns exactly its blocks'
group pairs, in order of appearance. -/
theorem parseConflictPairs_build :
    ∀ (L : List (RawBlock × List Char)) (first : List Char),
    NoOcc headerMark first → (∀ p ∈ L, WfRaw p.1 ∧ NoOcc headerMark p.2) →
    parseConflictPairs (buildContent first L)
      = L.map fun p => (p.1.cur, p.1.inc) := by
  intro L
  induction L with
  | nil =>
    intro first hfirst _
    show parseConflictPairs (buildContent first []) = []
    rw [show buildContent first [] = first from rfl]
    exact parseConflictPairs_eq_none (matchConflict_none hfirst)
  | cons p rest ih =>
    obtain ⟨r, seg⟩ := p
    intro first hfirst hL
    obtain ⟨hr, hseg⟩ := hL (r, seg) (by simp)
    rw [show buildContent first ((r, seg) :: rest)
        = first ++ blockText r ++ buildContent seg rest from rfl]
    rw [parseConflictPairs_eq_some
      (matchConflict_block r hr first (buildContent seg rest) hfirst)]
    have hcons : NoOcc headerMark ('\n' :: seg) := by
      refine noOcc_cons '\n' hseg ?hc
      simp [headerMark, isPre]
    have hrv : '\n' :: buildContent seg rest = buildContent ('\n' :: seg) rest := by
      cases rest with
      | nil => rfl
      | cons q qs => simp [buildContent]
    rw [hrv, ih ('\n' :: seg) hcons fun q hq => hL q (by simp [hq])]
    rfl

theorem applyMatchesFrom_eq_none {s : List Char} (ofs : Nat)
    (h : matchConflict s = none) : applyMatchesFrom ofs s = [] := by
  rw [applyMatchesFrom]
  split
  · rfl
  · rename_i heq
    rw [h] at heq
    exact absurd heq (by simp)

theorem applyMatchesFrom_eq_some {s pre cur inc lab rest : List Char} (ofs : Nat)
    (h : matchConflict s = some (pre, cur, inc, lab, rest)) :
    applyMatchesFrom ofs s
      = (ofs + pre.length, ofs + (s.length - (chopNl rest).length)) ::
        applyMatchesFrom (ofs + (s.length - (chopNl rest).length)) (chopNl rest) := by
  rw [applyMatchesFrom]
  split
  · rename_i heq
    rw [h] at heq
    exact absurd heq (by simp)
  · rename_i p' c' i' l' r' heq
    rw [h] at heq
    simp only [Option.some.injEq, Prod.mk.injEq] at heq
    obtain ⟨h1, -, -, -, h5⟩ := heq
    rw [h1, h5]

/-- The intended match offsets of a well-formed conflict file: each block's
region starts right after the preceding text and spans its rendered text
(trailing newline included). -/
def matchOffsets (ofs : Nat) (first : List Char) :
    List (RawBlock × List Char) → List (Nat × Nat)
  | [] => []
  | (r, seg) :: rest =>
    (ofs + first.length, ofs + first.length + (blockText r).length) ::
      matchOffsets (ofs + first.length + (blockText r).length) seg rest

/-- On a well-formed conflict file, the apply-time scan finds exactly the
blocks' regions, in order. -/
theorem applyMatchesFrom_build :
    ∀ (L : List (RawBlock × List Char)) (first : List Char),
    NoOcc headerMark first → (∀ p ∈ L, WfRaw p.1 ∧ NoOcc headerMark p.2) →
    ∀ ofs, applyMatchesFrom ofs (buildContent first L) = matchOffsets ofs first L := by
  intro L
  induction L with
  | nil =>
    intro first hfirst _ ofs
    rw [show buildContent first [] = first from rfl]
    rw [applyMatchesFrom_eq_none ofs (matchConflict_none hfirst)]
    rfl
  | cons p rest ih =>
    obtain ⟨r, seg⟩ := p
    intro first hfirst hL ofs
    obtain ⟨hr, hseg⟩ := hL (r, seg) (by simp)
    rw [show buildContent first ((r, seg) :: rest)
        = first ++ blockText r ++ buildContent seg rest from rfl]
    rw [applyMatchesFrom_eq_some ofs
      (matchConflict_block r hr first (buildContent seg rest) hfirst)]
    have hchop : chopNl ('\n' :: buildContent seg rest) = buildContent seg rest := by
      simp [chopNl]
    have hlen : (first ++ blockText r ++ buildContent seg rest).length
        = first.length + (blockText r).length + (buildContent seg rest).length := by
      simp [List.length_append]
      omega
    rw [hchop]
    have harith : ofs + ((first ++ blockText r ++ buildContent seg rest).length
        - (buildContent seg rest).length) = ofs + first.length + (blockText r).length := by
      omega
    rw [harith,
      ih seg hseg (fun q hq => hL q (by simp [hq])) (ofs + first.length + (blockText r).length)]
    rfl

/-! ## Applying resolutions (embedding of `GitSync._apply_resolutions` for one
file: resolutions are applied to the matched regions in reverse textual order
so that earlier match offsets stay valid). -/

/-- The chosen side of a block: `block.current if
pending.get_resolution(block.id) == "current" else block.incoming`. -/
def chosenText (getRes : Nat → List Char) (b : ConflictBlock) : List Char :=
  if getRes b.id = "current".data then b.current else b.incoming

/-- The reverse-order replacement loop of `_apply_resolutions`: each element
carries the original match index (Python's `idx = len(matches) - 1 - i`) and
the match's start and end offsets; an out-of-range block index models the
`IndexError` that aborts the per-file processing. -/
def apply_rev (blocks : List ConflictBlock) (getRes : Nat → List Char) :
    List (Nat × Nat × Nat) → List Char → Option (List Char)
  | [], content => some content
  | (idx, st, en) :: rest, content =>
    match blocks[idx]? with
    | none => none
    | some b =>
      apply_rev blocks getRes rest (content.take st ++ chosenText getRes b ++ content.drop en)

/-- Per-file core of `GitSync._apply_resolutions`: scan the (re-read) content
with the apply-time pattern, then substitute each block's chosen side over the
matched regions in reverse order.  Returns the rewritten content, or `none`
when the per-file exception path is taken. -/
def apply_file (getRes : Nat → List Char) (blocks : List ConflictBlock)
    (content : List Char) : Option (List Char) :=
  apply_rev blocks getRes (applyMatchesFrom 0 content).enum.reverse content

/-- The block list that parsing a well-formed conflict file must return. -/
def expectedBlocks (idOf : Nat → Nat) (path : List Char) (j : Nat) :
    List (RawBlock × List Char) → List ConflictBlock
  | [] => []
  | (r, _) :: rest =>
    ⟨idOf j, path, j, r.cur, r.inc⟩ :: expectedBlocks idOf path (j + 1) rest

theorem mkBlocksFrom_map (idOf : Nat → Nat) (path : List Char) :
    ∀ (L : List (RawBlock × List Char)) (j : Nat),
    mkBlocksFrom idOf path j (L.map fun p => (p.1.cur, p.1.inc))
      = expectedBlocks idOf path j L := by
  intro L
  induction L with
  | nil => intro j; rfl
  | cons p rest ih =>
    obtain ⟨r, seg⟩ := p
    intro j
    simp only [List.map_cons, mkBlocksFrom, expectedBlocks, ih]

/-- The chosen text of the block at position `j`, as a function of the raw
block: the selected side is the incoming text unless the recorded resolution
is literally `"current"`. -/
def pickText (getRes : Nat → List Char) (idOf : Nat → Nat) (j : Nat) (r : RawBlock) :
    List Char :=
  if getRes (idOf j) = "current".data then r.cur else r.inc

/-- The file produced by substituting each block's chosen side in place. -/
def buildApplied (getRes : Nat → List Char) (idOf : Nat → Nat) (j : Nat)
    (first : List Char) : List (RawBlock × List Char) → List Char
  | [] => first
  | (r, seg) :: rest =>
    first ++ pickText getRes idOf j r ++ buildApplied getRes idOf (j + 1) seg rest

/-- The pre-merge local file: every block replaced by its local text. -/
def buildLocal (first : List Char) : List (RawBlock × List Char) → List Char
  | [] => first
  | (r, seg) :: rest => first ++ r.cur ++ buildLocal seg rest

/-- The pre-merge remote file: every block replaced by its remote text. -/
def buildRemote (first : List Char) : List (RawBlock × List Char) → List Char
  | [] => first
  | (r, seg) :: rest => first ++ r.inc ++ buildRemote seg rest

theorem apply_rev_append (blocks : List ConflictBlock) (getRes : Nat → List Char) :
    ∀ (l₁ l₂ : List (Nat × Nat × Nat)) (content : List Char),
    apply_rev blocks getRes (l₁ ++ l₂) content
      = (apply_rev blocks getRes l₁ content).bind (apply_rev blocks getRes l₂) := by
  intro l₁
  induction l₁ with
  | nil => intro l₂ content; rfl
  | cons m rest ih =>
    obtain ⟨idx, st, en⟩ := m
    intro l₂ content
    rw [List.cons_append, apply_rev, apply_rev]
    cases blocks[idx]? with
    | none => rfl
    | some b => exact ih l₂ _

theorem apply_rev_one (blocks : List ConflictBlock) (getRes : Nat → List Char)
    (idx st en : Nat) (content : List Char) {b : ConflictBlock}
    (hb : blocks[idx]? = some b) :
    apply_rev blocks getRes [(idx, st, en)] content
      = some (content.take st ++ chosenText getRes b ++ content.drop en) := by
  show (match blocks[idx]? with
    | none => none
    | some b =>
      apply_rev blocks getRes []
        (content.take st ++ chosenText getRes b ++ content.drop en)) = _
  rw [hb]
  rfl

/-- Substituting the chosen sides over the intended match regions in reverse
order rewrites a well-formed conflict file into the chosen interleaving:
each replacement touches only text at or after its own start offset, so the
offsets of the not-yet-applied earlier regions stay valid. -/
theorem apply_rev_offsets (getRes : Nat → List Char) (idOf : Nat → Nat)
    (path : List Char) :
    ∀ (L : List (RawBlock × List Char)) (j : Nat) (P first : List Char)
      (blocks : List ConflictBlock),
    blocks.drop j = expectedBlocks idOf path j L →
    apply_rev blocks getRes (List.enumFrom j (matchOffsets P.length first L)).reverse
        (P ++ buildContent first L)
      = some (P ++ buildApplied getRes idOf j first L) := by
  intro L
  induction L with
  | nil => intro j P first blocks _; rfl
  | cons p rest ih =>
    obtain ⟨r, seg⟩ := p
    intro j P first blocks hdrop
    rw [show matchOffsets P.length first ((r, seg) :: rest)
        = (P.length + first.length, P.length + first.length + (blockText r).length) ::
          matchOffsets (P.length + first.length + (blockText r).length) seg rest from rfl]
    rw [show List.enumFrom j
          ((P.length + first.length, P.length + first.length + (blockText r).length) ::
            matchOffsets (P.length + first.length + (blockText r).length) seg rest)
        = (j, P.length + first.length, P.length + first.length + (blockText r).length) ::
          List.enumFrom (j + 1)
            (matchOffsets (P.length + first.length + (blockText r).length) seg rest) from rfl]
    rw [List.reverse_cons, apply_rev_append]
    have hP' : (P ++ first ++ blockText r).length
        = P.length + first.length + (blockText r).length := by
      simp [List.length_append]
      omega
    have hdrop' : blocks.drop (j + 1) = expectedBlocks idOf path (j + 1) rest := by
      have h1 : blocks.drop (j + 1) = (blocks.drop j).drop 1 := by
        rw [List.drop_drop, Nat.add_comm]
      rw [h1, hdrop]
      rfl
    have hC : P ++ buildContent first ((r, seg) :: rest)
        = (P ++ first ++ blockText r) ++ buildContent seg rest := by
      rw [show buildContent first ((r, seg) :: rest)
          = first ++ blockText r ++ buildContent seg rest from rfl]
      simp [List.append_assoc]
    rw [hC, ← hP', ih (j + 1) (P ++ first ++ blockText r) seg blocks hdrop']
    rw [Option.some_bind]
    have hb : blocks[j]? = some ⟨idOf j, path, j, r.cur, r.inc⟩ := by
      have h0 := congrArg (fun l => l[0]?) hdrop
      simp only [List.getElem?_drop, Nat.add_zero] at h0
      rw [show expectedBlocks idOf path j ((r, seg) :: rest)
          = (⟨idOf j, path, j, r.cur, r.inc⟩ : ConflictBlock) ::
            expectedBlocks idOf path (j + 1) rest from rfl] at h0
      simpa using h0
    rw [apply_rev_one blocks getRes j (P.length + first.length)
      ((P ++ first ++ blockText r).length) _ hb]
    have htake : ((P ++ first ++ blockText r) ++ buildApplied getRes idOf (j + 1) seg rest).take
        (P.length + first.length) = P ++ first := by
      have hshape : (P ++ first ++ blockText r) ++ buildApplied getRes idOf (j + 1) seg rest
          = (P ++ first) ++ (blockText r ++ buildApplied getRes idOf (j + 1) seg rest) := by
        simp [List.append_assoc]
      rw [hshape, show P.length + first.length = (P ++ first).length by simp, List.take_left]
    have hdropEn : ((P ++ first ++ blockText r) ++
          buildApplied getRes idOf (j + 1) seg rest).drop
        (P ++ first ++ blockText r).length
        = buildApplied getRes idOf (j + 1) seg rest :=
      List.drop_left _ _
    rw [htake, hdropEn]
    have hch : chosenText getRes ⟨idOf j, path, j, r.cur, r.inc⟩
        = pickText getRes idOf j r := rfl
    rw [hch]
    rw [show buildApplied getRes idOf j first ((r, seg) :: rest)
        = first ++ pickText getRes idOf j r ++ buildApplied getRes idOf (j + 1) seg rest from rfl]
    simp [List.append_assoc]

theorem expectedBlocks_length (idOf : Nat → Nat) (path : List Char) :
    ∀ (L : List (RawBlock × List Char)) (j : Nat),
    (expectedBlocks idOf path j L).length = L.length := by
  intro L
  induction L with
  | nil => intro j; rfl
  | cons p rest ih =>
    obtain ⟨r, seg⟩ := p
    intro j
    simp [expectedBlocks, ih]

theorem expectedBlocks_map_index (idOf : Nat → Nat) (path : List Char) :
    ∀ (L : List (RawBlock × List Char)) (j : Nat),
    (expectedBlocks idOf path j L).map ConflictBlock.block_index
      = List.range' j L.length := by
  intro L
  induction L with
  | nil => intro j; rfl
  | cons p rest ih =>
    obtain ⟨r, seg⟩ := p
    intro j
    simp only [expectedBlocks, List.map_cons, ih, List.length_cons, List.range'_succ]

/-- `_apply_resolutions` on a well-formed conflict file parsed by
`_parse_conflicts` rewrites it into the resolution-chosen interleaving. -/
theorem apply_file_build (getRes : Nat → List Char) (idOf : Nat → Nat) (path : List Char)
    (first : List Char) (L : List (RawBlock × List Char)) (hwf : WfBuild first L) :
    apply_file getRes (parse_conflicts idOf (buildContent first L) path)
        (buildContent first L)
      = some (buildApplied getRes idOf 0 first L) := by
  obtain ⟨hfirst, hL⟩ := hwf
  unfold apply_file parse_conflicts
  rw [parseConflictPairs_build L first hfirst hL, mkBlocksFrom_map]
  rw [applyMatchesFrom_build L first hfirst hL 0]
  have h := apply_rev_offsets getRes idOf path L 0 [] first
    (expectedBlocks idOf path 0 L) (by rw [List.drop_zero])
  rw [show (matchOffsets 0 first L).enum
      = List.enumFrom 0 (matchOffsets 0 first L) from rfl]
  simpa using h

theorem buildApplied_current (idOf : Nat → Nat) :
    ∀ (L : List (RawBlock × List Char)) (j : Nat) (first : List Char),
    buildApplied (fun _ => "current".data) idOf j first L = buildLocal first L := by
  intro L
  induction L with
  | nil => intro j first; rfl
  | cons p rest ih =>
    obtain ⟨r, seg⟩ := p
    intro j first
    rw [show buildApplied (fun _ => "current".data) idOf j first ((r, seg) :: rest)
        = first ++ pickText (fun _ => "current".data) idOf j r ++
          buildApplied (fun _ => "current".data) idOf (j + 1) seg rest from rfl]
    rw [show pickText (fun _ => "current".data) idOf j r = r.cur from if_pos rfl]
    rw [ih (j + 1) seg]
    rfl

theorem buildApplied_incoming (idOf : Nat → Nat) :
    ∀ (L : List (RawBlock × List Char)) (j : Nat) (first : List Char),
    buildApplied (fun _ => "incoming".data) idOf j first L = buildRemote first L := by
  intro L
  induction L with
  | nil => intro j first; rfl
  | cons p rest ih =>
    obtain ⟨r, seg⟩ := p
    intro j first
    rw [show buildApplied (fun _ => "incoming".data) idOf j first ((r, seg) :: rest)
        = first ++ pickText (fun _ => "incoming".data) idOf j r ++
          buildApplied (fun _ => "incoming".data) idOf (j + 1) seg rest from rfl]
    rw [show pickText (fun _ => "incoming".data) idOf j r = r.inc from
      if_neg (by decide : ¬("incoming".data = "current".data))]
    rw [ih (j + 1) seg]
    rfl

/-- C1: for a well-formed conflict file with `k` blocks, `_parse_conflicts`
yields exactly the `k` blocks in order of appearance with `block_index`
`0..k-1`, and `_apply_resolutions` (processing matched regions in reverse
textual order) substitutes each block's chosen side verbatim: choosing
`"current"` everywhere reproduces the pre-merge local file byte-for-byte,
choosing `"incoming"` everywhere reproduces the pre-merge remote file, and
any mixed choice yields each block's chosen text in place, the built result
containing no marker text of the parsed blocks. -/
theorem C1_conflict_roundtrip (idOf : Nat → Nat) (path first : List Char)
    (L : List (RawBlock × List Char)) (hwf : WfBuild first L) :
    parse_conflicts idOf (buildContent first L) path = expectedBlocks idOf path 0 L
    ∧ (parse_conflicts idOf (buildContent first L) path).length = L.length
    ∧ (parse_conflicts idOf (buildContent first L) path).map ConflictBlock.block_index
        = List.range' 0 L.length
    ∧ apply_file (fun _ => "current".data)
        (parse_conflicts idOf (buildContent first L) path) (buildContent first L)
        = some (buildLocal first L)
    ∧ apply_file (fun _ => "incoming".data)
        (parse_conflicts idOf (buildContent first L) path) (buildContent first L)
        = some (buildRemote first L)
    ∧ ∀ getRes : Nat → List Char,
        apply_file getRes (parse_conflicts idOf (buildContent first L) path)
          (buildContent first L)
          = some (buildApplied getRes idOf 0 first L) := by
  have hparse : parse_conflicts idOf (buildContent first L) path
      = expectedBlocks idOf path 0 L := by
    unfold parse_conflicts
    rw [parseConflictPairs_build L first hwf.1 hwf.2, mkBlocksFrom_map]
  refine ⟨hparse, ?len, ?idx, ?cur, ?inc, ?mixed⟩
  case len => rw [hparse, expectedBlocks_length]
  case idx => rw [hparse, expectedBlocks_map_index]
  case cur => rw [apply_file_build _ idOf path first L hwf, buildApplied_current]
  case inc => rw [apply_file_build _ idOf path first L hwf, buildApplied_incoming]
  case mixed => exact fun getRes => apply_file_build getRes idOf path first L hwf

/-- A concrete two-block conflict file used as witness input. -/
def c1wFirst : List Char := "# notes\n".data

/-- The two witness blocks with their trailing text segments. -/
def c1wL : List (RawBlock × List Char) :=
  [(⟨"alpha\n".data, "beta\n".data, "origin/main".data⟩, "between\n".data),
   (⟨"left\n".data, "right\n".data, "abc123".data⟩, "tail\n".data)]

theorem C1_conflict_roundtrip_witness :
    WfBuild c1wFirst c1wL
    ∧ parse_conflicts (fun i => i + 7) (buildContent c1wFirst c1wL) "n.md".data
        = expectedBlocks (fun i => i + 7) "n.md".data 0 c1wL
    ∧ apply_file (fun _ => "current".data)
        (parse_conflicts (fun i => i + 7) (buildContent c1wFirst c1wL) "n.md".data)
        (buildContent c1wFirst c1wL) = some (buildLocal c1wFirst c1wL) :=
  have hwf : WfBuild c1wFirst c1wL := by decide
  ⟨hwf, (C1_conflict_roundtrip (fun i => i + 7) "n.md".data c1wFirst c1wL hwf).1,
    (C1_conflict_roundtrip (fun i => i + 7) "n.md".data c1wFirst c1wL hwf).2.2.2.1⟩

/-! ## PendingMerge (embedding of the `PendingMerge` dataclass). -/

structure PendingMerge where
  blocks : List ConflictBlock
  pending_ids : Finset Nat
  resolutions : Nat → Option (List Char)
  done_event : Bool

/-- The dataclass constructor together with `__post_init__`: the pending set
holds every block's id, the resolution map is empty and the completion event
is unset. -/
def PendingMerge.mk_init (blocks : List ConflictBlock) : PendingMerge :=
  { blocks := blocks
    pending_ids := (blocks.map ConflictBlock.id).toFinset
    resolutions := fun _ => none
    done_event := false }

/-- Embedding of `PendingMerge.resolve`: reject ids not currently pending,
otherwise record the resolution, discard the id, and set the completion event
when the pending set empties.  Returns the Python method's boolean together
with the updated state. -/
def PendingMerge.resolve (s : PendingMerge) (block_id : Nat) (resolution : List Char) :
    Bool × PendingMerge :=
  if block_id ∈ s.pending_ids then
    (true,
      { s with
        resolutions := fun x => if x = block_id then some resolution else s.resolutions x
        pending_ids := s.pending_ids.erase block_id
        done_event :=
          if s.pending_ids.erase block_id = ∅ then true else s.done_event })
  else (false, s)

/-- Embedding of `PendingMerge.get_resolution`: the recorded choice,
defaulting to `"current"`. -/
def PendingMerge.get_resolution (s : PendingMerge) (block_id : Nat) : List Char :=
  (s.resolutions block_id).getD "current".data

/-- Embedding of `PendingMerge.wait_for_resolution`, observed at the moment
the wait concludes (every block resolved, or the timeout elapsed): the value
returned is the state of the completion event at that moment. -/
def PendingMerge.wait_for_resolution (s : PendingMerge) : Bool := s.done_event

/-- A sequence of `resolve` calls applied in order. -/
def run_resolves (s : PendingMerge) : List (Nat × List Char) → PendingMerge
  | [] => s
  | c :: cs => run_resolves (s.resolve c.1 c.2).2 cs

theorem resolve_pending_ids (s : PendingMerge) (block_id : Nat) (resolution : List Char) :
    ((s.resolve block_id resolution).2).pending_ids = s.pending_ids.erase block_id := by
  unfold PendingMerge.resolve
  split
  · rfl
  · rename_i h
    rw [Finset.erase_eq_of_not_mem h]

theorem resolve_event_inv (s : PendingMerge) (block_id : Nat) (resolution : List Char)
    (hInv : s.done_event = true ↔ s.pending_ids = ∅) :
    ((s.resolve block_id resolution).2).done_event = true
      ↔ ((s.resolve block_id resolution).2).pending_ids = ∅ := by
  unfold PendingMerge.resolve
  split
  · rename_i hmem
    show (if s.pending_ids.erase block_id = ∅ then true else s.done_event) = true
      ↔ s.pending_ids.erase block_id = ∅
    split
    · rename_i he
      simp [he]
    · rename_i he
      have hne : s.pending_ids ≠ ∅ := fun h0 => Finset.not_mem_empty block_id (h0 ▸ hmem)
      constructor
      · intro hd
        exact absurd (hInv.mp hd) hne
      · intro h0
        exact absurd h0 he
  · exact hInv

theorem run_resolves_inv (calls : List (Nat × List Char)) :
    ∀ s : PendingMerge, (s.done_event = true ↔ s.pending_ids = ∅) →
    ((run_resolves s calls).done_event = true ↔ (run_resolves s calls).pending_ids = ∅) := by
  induction calls with
  | nil => intro s h; exact h
  | cons c cs ih =>
    intro s h
    exact ih _ (resolve_event_inv s c.1 c.2 h)

theorem run_resolves_pending (calls : List (Nat × List Char)) :
    ∀ s : PendingMerge,
    (run_resolves s calls).pending_ids = s.pending_ids \ (calls.map Prod.fst).toFinset := by
  induction calls with
  | nil => intro s; simp [run_resolves]
  | cons c cs ih =>
    intro s
    rw [show run_resolves s (c :: cs) = run_resolves (s.resolve c.1 c.2).2 cs from rfl]
    rw [ih, resolve_pending_ids]
    ext x
    simp only [Finset.mem_sdiff, Finset.mem_erase, List.map_cons, List.toFinset_cons,
      Finset.mem_insert, List.mem_toFinset]
    tauto

/-- C5: resolving an id that is not currently pending returns `False` and
leaves the state (resolutions, pending set, completion signal) unchanged;
resolving a pending id records the resolution, removes the id from the
pending set, and returns `True`. -/
theorem C5_resolve_safety (s : PendingMerge) (block_id : Nat) (resolution : List Char) :
    (block_id ∉ s.pending_ids → s.resolve block_id resolution = (false, s))
    ∧ (block_id ∈ s.pending_ids →
        (s.resolve block_id resolution).1 = true
        ∧ (s.resolve block_id resolution).2.resolutions block_id = some resolution
        ∧ block_id ∉ (s.resolve block_id resolution).2.pending_ids) := by
  constructor
  · intro h
    unfold PendingMerge.resolve
    rw [if_neg h]
  · intro h
    unfold PendingMerge.resolve
    rw [if_pos h]
    refine ⟨rfl, ?_, ?_⟩
    · show (if block_id = block_id then some resolution else s.resolutions block_id)
        = some resolution
      rw [if_pos rfl]
    · show block_id ∉ s.pending_ids.erase block_id
      exact Finset.not_mem_erase _ _

/-- Two concrete blocks used as witness input for the PendingMerge claims. -/
def pmWitnessBlocks : List ConflictBlock :=
  [⟨5, [], 0, ['a'], ['b']⟩, ⟨6, [], 1, ['c'], ['d']⟩]

theorem C5_resolve_safety_witness :
    ((PendingMerge.mk_init pmWitnessBlocks).resolve 9 "incoming".data
      = (false, PendingMerge.mk_init pmWitnessBlocks))
    ∧ ((PendingMerge.mk_init pmWitnessBlocks).resolve 5 "incoming".data).1 = true :=
  ⟨(C5_resolve_safety (PendingMerge.mk_init pmWitnessBlocks) 9 "incoming".data).1
      (by decide),
    ((C5_resolve_safety (PendingMerge.mk_init pmWitnessBlocks) 5 "incoming".data).2
      (by decide)).1⟩

/-- C6: starting from a fresh nonempty PendingMerge, after any sequence of
`resolve` calls the completion signal is set exactly when every block id has
been resolved (it fires with the call that empties the pending set, never
before), `wait_for_resolution` reports exactly that state, and
`get_resolution` of any never-resolved id defaults to `"current"`. -/
theorem C6_completion_signal (blocks : List ConflictBlock)
    (calls : List (Nat × List Char)) (hne : blocks ≠ []) :
    ((run_resolves (PendingMerge.mk_init blocks) calls).wait_for_resolution = true
      ↔ ∀ b ∈ blocks, b.id ∈ calls.map Prod.fst)
    ∧ (∀ i, (run_resolves (PendingMerge.mk_init blocks) calls).resolutions i = none →
        (run_resolves (PendingMerge.mk_init blocks) calls).get_resolution i
          = "current".data) := by
  have hInv0 : (PendingMerge.mk_init blocks).done_event = true
      ↔ (PendingMerge.mk_init blocks).pending_ids = ∅ := by
    constructor
    · intro h
      exact absurd h (by simp [PendingMerge.mk_init])
    · intro h
      obtain ⟨b, hb⟩ := List.exists_mem_of_ne_nil blocks hne
      have hbid : b.id ∈ (blocks.map ConflictBlock.id).toFinset := by
        rw [List.mem_toFinset]
        exact List.mem_map_of_mem _ hb
      rw [show (PendingMerge.mk_init blocks).pending_ids
          = (blocks.map ConflictBlock.id).toFinset from rfl] at h
      rw [h] at hbid
      exact absurd hbid (Finset.not_mem_empty _)
  have hfin := run_resolves_inv calls _ hInv0
  have hpend := run_resolves_pending calls (PendingMerge.mk_init blocks)
  constructor
  · rw [show (run_resolves (PendingMerge.mk_init blocks) calls).wait_for_resolution
      = (run_resolves (PendingMerge.mk_init blocks) calls).done_event from rfl]
    rw [hfin, hpend, Finset.sdiff_eq_empty_iff_subset]
    constructor
    · intro hsub b hb
      have hbid : b.id ∈ (blocks.map ConflictBlock.id).toFinset := by
        rw [List.mem_toFinset]
        exact List.mem_map_of_mem _ hb
      have := hsub hbid
      rwa [List.mem_toFinset] at this
    · intro hall x hx
      rw [show (PendingMerge.mk_init blocks).pending_ids
          = (blocks.map ConflictBlock.id).toFinset from rfl, List.mem_toFinset] at hx
      rw [List.mem_toFinset]
      obtain ⟨b, hb, rfl⟩ := List.mem_map.mp hx
      exact hall b hb
  · intro i h
    unfold PendingMerge.get_resolution
    rw [h]
    rfl

theorem C6_completion_signal_witness :
    ((run_resolves (PendingMerge.mk_init pmWitnessBlocks)
        [(5, "current".data), (6, "incoming".data)]).wait_for_resolution = true
      ↔ ∀ b ∈ pmWitnessBlocks,
          b.id ∈ ([(5, "current".data), (6, "incoming".data)].map Prod.fst)) :=
  (C6_completion_signal pmWitnessBlocks
    [(5, "current".data), (6, "incoming".data)] (by decide)).1

/-- C10: `resolve` records any resolution string without validating it, and
at apply time every recorded value other than exactly `"current"` selects the
block's incoming side: an arbitrary invalid string succeeds, marks the block
resolved, and resolves it to the remote side rather than the `"current"`
default. -/
theorem C10_unvalidated_resolution (s : PendingMerge) (block_id : Nat) (r : List Char)
    (hmem : block_id ∈ s.pending_ids) (hr : r ≠ "current".data) :
    (s.resolve block_id r).1 = true
    ∧ (s.resolve block_id r).2.get_resolution block_id = r
    ∧ ∀ b : ConflictBlock, b.id = block_id →
        chosenText ((s.resolve block_id r).2.get_resolution) b = b.incoming := by
  have h1 : (s.resolve block_id r).1 = true := by
    unfold PendingMerge.resolve
    rw [if_pos hmem]
  have h2 : (s.resolve block_id r).2.get_resolution block_id = r := by
    unfold PendingMerge.resolve
    rw [if_pos hmem]
    unfold PendingMerge.get_resolution
    show (if block_id = block_id then some r else s.resolutions block_id).getD
      "current".data = r
    rw [if_pos rfl]
    rfl
  refine ⟨h1, h2, ?_⟩
  intro b hb
  unfold chosenText
  rw [hb, h2, if_neg hr]

theorem C10_unvalidated_resolution_witness :
    ((PendingMerge.mk_init pmWitnessBlocks).resolve 5 "bogus".data).1 = true
    ∧ ((PendingMerge.mk_init pmWitnessBlocks).resolve 5 "bogus".data).2.get_resolution 5
        = "bogus".data :=
  ⟨(C10_unvalidated_resolution (PendingMerge.mk_init pmWitnessBlocks) 5 "bogus".data
      (by decide) (by decide)).1,
    (C10_unvalidated_resolution (PendingMerge.mk_init pmWitnessBlocks) 5 "bogus".data
      (by decide) (by decide)).2.1⟩

/-! ## The auto-commit cycle (embedding of the `GitSync.sync_loop` body and of
`GitSync._run_git` as an action trace over an environment recording the
outcomes of the external git operations; error callbacks are abstracted as
numeric tokens). -/

structure RepoState where
  dirty : Bool
  note_count : Nat
  error_callbacks : List Nat
  deriving DecidableEq, Repr

/-- The engine's initial repository state (`GitSync.__init__`). -/
def init_state : RepoState := ⟨false, 0, []⟩

/-- Embedding of `GitSync.mark_dirty`: set the flag, increment the note
count, and append the optional error callback. -/
def mark_dirty (st : RepoState) (on_error : Option Nat) : RepoState :=
  { dirty := true
    note_count := st.note_count + 1
    error_callbacks := st.error_callbacks ++ on_error.toList }

/-- A sequence of `mark_dirty` calls applied in order. -/
def mark_dirty_iter (st : RepoState) : List (Option Nat) → RepoState
  | [] => st
  | c :: cs => mark_dirty_iter (mark_dirty st c) cs

inductive SyncAction where
  | pull : SyncAction
  | notify_error : Nat → String → SyncAction
  | stage_all : SyncAction
  | commit : String → SyncAction
  | push : SyncAction
  deriving DecidableEq, Repr

/-- Outcomes of the external git operations during one `_run_git` call:
whether the pull sub-procedure succeeded, whether `git diff --cached --quiet`
reported staged changes, and whether commit and push succeeded (with their
diagnostic text on failure). -/
structure GitEnv where
  pull_ok : Bool
  has_staged : Bool
  commit_ok : Bool
  push_ok : Bool
  commit_err : String
  push_err : String

/-- The commit-message f-string of `GitSync._run_git`. -/
def commit_message (note_count : Nat) : String :=
  "telegram: add " ++ toString note_count ++ " note"
    ++ (if note_count != 1 then "s" else "")

/-- Embedding of `GitSync._run_git` as the ordered trace of repository
actions and error notifications it performs. -/
def run_git (env : GitEnv) (note_count : Nat) (error_callbacks : List Nat) :
    List SyncAction :=
  if !env.pull_ok then
    SyncAction.pull ::
      error_callbacks.map fun cb =>
        SyncAction.notify_error cb "Git pull failed, skipping push"
  else if !env.has_staged then
    [SyncAction.pull, SyncAction.stage_all]
  else if !env.commit_ok then
    [SyncAction.pull, SyncAction.stage_all,
      SyncAction.commit (commit_message note_count)]
      ++ error_callbacks.map fun cb =>
        SyncAction.notify_error cb ("Git sync failed (commit): `" ++ env.commit_err ++ "`")
  else if !env.push_ok then
    [SyncAction.pull, SyncAction.stage_all,
      SyncAction.commit (commit_message note_count), SyncAction.push]
      ++ error_callbacks.map fun cb =>
        SyncAction.notify_error cb ("Git sync failed (push): `" ++ env.push_err ++ "`")
  else
    [SyncAction.pull, SyncAction.stage_all,
      SyncAction.commit (commit_message note_count), SyncAction.push]

/-- One tick of the `GitSync.sync_loop` body: when dirty, snapshot the count
and callbacks, reset the state (all under the lock, before any repository
I/O), then run `_run_git` on the snapshot; otherwise do nothing. -/
def sync_cycle (env : GitEnv) (st : RepoState) : RepoState × List SyncAction :=
  if st.dirty then (init_state, run_git env st.note_count st.error_callbacks)
  else (st, [])

theorem mark_dirty_iter_spec :
    ∀ (cbs : List (Option Nat)) (st : RepoState),
    (mark_dirty_iter st cbs).note_count = st.note_count + cbs.length
    ∧ (cbs ≠ [] → (mark_dirty_iter st cbs).dirty = true)
    ∧ (cbs ≠ [] →
        (mark_dirty_iter st cbs).error_callbacks
          = st.error_callbacks ++ (cbs.map Option.toList).join) := by
  intro cbs
  induction cbs with
  | nil => intro st; exact ⟨by simp [mark_dirty_iter], fun h => absurd rfl h, fun h => absurd rfl h⟩
  | cons c cs ih =>
    intro st
    refine ⟨?_, ?_, ?_⟩
    · rw [show mark_dirty_iter st (c :: cs) = mark_dirty_iter (mark_dirty st c) cs from rfl,
        (ih (mark_dirty st c)).1]
      simp [mark_dirty]
      omega
    · intro _
      rw [show mark_dirty_iter st (c :: cs) = mark_dirty_iter (mark_dirty st c) cs from rfl]
      cases cs with
      | nil => rfl
      | cons d ds => exact (ih (mark_dirty st c)).2.1 (by simp)
    · intro _
      rw [show mark_dirty_iter st (c :: cs) = mark_dirty_iter (mark_dirty st c) cs from rfl]
      cases cs with
      | nil => simp [mark_dirty_iter, mark_dirty]
      | cons d ds =>
        rw [(ih (mark_dirty st c)).2.2 (by simp)]
        simp [mark_dirty, List.append_assoc]

theorem run_git_commit_msg (env : GitEnv) (n : Nat) (cbs : List Nat) (m : String)
    (h : SyncAction.commit m ∈ run_git env n cbs) : m = commit_message n := by
  unfold run_git at h
  split at h
  · simp [List.mem_map] at h
  · split at h
    · simp at h
    · split at h
      · simp [List.mem_map] at h
        exact h
      · split at h
        · simp [List.mem_map] at h
          exact h
        · simp at h
          exact h

theorem commit_message_format (n : Nat) :
    commit_message n
      = "telegram: add " ++ toString n ++ " note" ++ (if n = 1 then "" else "s") := by
  unfold commit_message
  by_cases h : n = 1
  · simp [h]
  · simp [bne_iff_ne, h]

/-- C4: with `n` accumulated `mark_dirty` calls, `n = 0` means the cycle
performs nothing at all (in particular no commit); otherwise every commit the
cycle performs carries exactly the message `telegram: add n note`, with the
`s` suffix present iff `n` is not `1`, and when the pull succeeds and changes
are staged, such a commit does occur. -/
theorem C4_commit_message (env : GitEnv) (cbs : List (Option Nat)) :
    (cbs = [] → (sync_cycle env (mark_dirty_iter init_state cbs)).2 = [])
    ∧ (∀ m, SyncAction.commit m ∈ (sync_cycle env (mark_dirty_iter init_state cbs)).2 →
        m = "telegram: add " ++ toString cbs.length ++ " note"
          ++ (if cbs.length = 1 then "" else "s"))
    ∧ (cbs ≠ [] → env.pull_ok = true → env.has_staged = true →
        SyncAction.commit (commit_message cbs.length)
          ∈ (sync_cycle env (mark_dirty_iter init_state cbs)).2) := by
  refine ⟨?_, ?_, ?_⟩
  · intro h
    rw [h]
    rfl
  · intro m hm
    cases hcs : cbs with
    | nil =>
      rw [hcs] at hm
      exact absurd hm (by simp [sync_cycle, mark_dirty_iter, init_state])
    | cons c cs =>
      rw [← hcs]
      have hd : (mark_dirty_iter init_state cbs).dirty = true :=
        (mark_dirty_iter_spec cbs init_state).2.1 (by rw [hcs]; simp)
      rw [show sync_cycle env (mark_dirty_iter init_state cbs)
          = (init_state, run_git env (mark_dirty_iter init_state cbs).note_count
              (mark_dirty_iter init_state cbs).error_callbacks) from by
        unfold sync_cycle; rw [hd]; rfl] at hm
      have hmsg := run_git_commit_msg env _ _ m hm
      have hcount : (mark_dirty_iter init_state cbs).note_count = cbs.length := by
        rw [(mark_dirty_iter_spec cbs init_state).1]
        simp [init_state]
      rw [hmsg, hcount, commit_message_format]
  · intro hne hp hs
    have hd : (mark_dirty_iter init_state cbs).dirty = true :=
      (mark_dirty_iter_spec cbs init_state).2.1 hne
    rw [show sync_cycle env (mark_dirty_iter init_state cbs)
        = (init_state, run_git env (mark_dirty_iter init_state cbs).note_count
            (mark_dirty_iter init_state cbs).error_callbacks) from by
      unfold sync_cycle; rw [hd]; rfl]
    have hcount : (mark_dirty_iter init_state cbs).note_count = cbs.length := by
      rw [(mark_dirty_iter_spec cbs init_state).1]
      simp [init_state]
    rw [show (init_state, run_git env (mark_dirty_iter init_state cbs).note_count
        (mark_dirty_iter init_state cbs).error_callbacks).2
        = run_git env (mark_dirty_iter init_state cbs).note_count
            (mark_dirty_iter init_state cbs).error_callbacks from rfl]
    unfold run_git
    rw [hcount, if_neg (by rw [hp]; simp), if_neg (by rw [hs]; simp)]
    split
    · simp
    · split
      · simp
      · simp

/-- A fully-succeeding git environment used as witness input. -/
def allOkEnv : GitEnv := ⟨true, true, true, true, "", ""⟩

theorem C4_commit_message_witness :
    (sync_cycle allOkEnv (mark_dirty_iter init_state [])).2 = []
    ∧ commit_message 3 = "telegram: add " ++ toString (3 : Nat) ++ " note"
        ++ (if (3 : Nat) = 1 then "" else "s") :=
  ⟨(C4_commit_message allOkEnv []).1 rfl,
    (C4_commit_message allOkEnv [none, none, none]).2.1 (commit_message 3)
      ((C4_commit_message allOkEnv [none, none, none]).2.2 (by decide) rfl rfl)⟩

theorem count_notify_map (cbs : List Nat) (cb : Nat) (msg : String) :
    ((cbs.map fun c => SyncAction.notify_error c msg).count
        (SyncAction.notify_error cb msg))
      = cbs.count cb := by
  induction cbs with
  | nil => rfl
  | cons a l ih =>
    by_cases hac : a = cb
    · simp [List.count_cons, ih, hac]
    · simp [List.count_cons, ih, hac]

/-- C7: in a dirty cycle the repository state is snapshotted and reset before
any repository I/O (the post-cycle state is the initial state, the snapshotted
count discarded, not restored), and when the pull sub-procedure fails every
snapshotted error callback is notified exactly once per registration with the
pull-failure message and the cycle performs no stage, commit, or push. -/
theorem C7_snapshot_and_pull_failure (env : GitEnv) (st : RepoState)
    (hd : st.dirty = true) (hp : env.pull_ok = false) :
    (sync_cycle env st).1 = init_state
    ∧ (sync_cycle env st).2
        = SyncAction.pull ::
            st.error_callbacks.map (fun cb =>
              SyncAction.notify_error cb "Git pull failed, skipping push")
    ∧ (∀ cb, (sync_cycle env st).2.count
          (SyncAction.notify_error cb "Git pull failed, skipping push")
        = st.error_callbacks.count cb)
    ∧ SyncAction.stage_all ∉ (sync_cycle env st).2
    ∧ (∀ m, SyncAction.commit m ∉ (sync_cycle env st).2)
    ∧ SyncAction.push ∉ (sync_cycle env st).2 := by
  have htr : (sync_cycle env st).2
      = SyncAction.pull ::
          st.error_callbacks.map (fun cb =>
            SyncAction.notify_error cb "Git pull failed, skipping push") := by
    unfold sync_cycle
    rw [if_pos hd]
    show run_git env st.note_count st.error_callbacks = _
    unfold run_git
    rw [if_pos (by rw [hp]; rfl)]
  have hst : (sync_cycle env st).1 = init_state := by
    unfold sync_cycle
    rw [if_pos hd]
  refine ⟨hst, htr, ?_, ?_, ?_, ?_⟩
  · intro cb
    rw [htr]
    simp [List.count_cons, count_notify_map]
  · rw [htr]
    simp [List.mem_map]
  · intro m
    rw [htr]
    simp [List.mem_map]
  · rw [htr]
    simp [List.mem_map]

/-- A dirty state with duplicate-registered callbacks, witness input. -/
def c7wSt : RepoState := ⟨true, 2, [4, 4, 9]⟩

/-- A pull-failing git environment, witness input. -/
def pullFailEnv : GitEnv := ⟨false, true, true, true, "", ""⟩

theorem C7_snapshot_and_pull_failure_witness :
    (sync_cycle pullFailEnv c7wSt).1 = init_state
    ∧ (sync_cycle pullFailEnv c7wSt).2.count
        (SyncAction.notify_error 4 "Git pull failed, skipping push")
      = c7wSt.error_callbacks.count 4 :=
  ⟨(C7_snapshot_and_pull_failure pullFailEnv c7wSt rfl rfl).1,
    (C7_snapshot_and_pull_failure pullFailEnv c7wSt rfl rfl).2.2.1 4⟩

/-! ## The conflict pipeline (embedding of `GitSync._handle_conflicts` as a
function of the outcomes of the involved external operations). -/

/-- Environment of one `_handle_conflicts` invocation: the unmerged paths
reported by `git diff --name-only --diff-filter=U`, the per-file read result
(`none` models a read/parse exception, which is caught and skipped), the
fresh-id supply, whether a conflict handler is registered, whether
`wait_for_resolution` reported completion before the timeout, and the result
of `_complete_merge`. -/
structure ConflictEnv where
  conflicting_files : List (List Char)
  read_file : List Char → Option (List Char)
  idOf : List Char → Nat → Nat
  has_handler : Bool
  resolved : Bool
  complete_ok : Bool

inductive MergeAction where
  | complete_merge : MergeAction
  | abort_merge : MergeAction
  | notify_conflict : MergeAction
  | apply_resolutions : MergeAction
  deriving DecidableEq, Repr

/-- The `blocks` aggregation loop of `_handle_conflicts`: parse each
conflicted file, skipping files whose read or parse raises. -/
def collect_blocks (env : ConflictEnv) : List ConflictBlock :=
  (env.conflicting_files.map fun fp =>
    match env.read_file fp with
    | some content => parse_conflicts (env.idOf fp) content fp
    | none => []).join

/-- Result of one `_handle_conflicts` invocation: the returned boolean, the
ordered trace of merge-level actions performed, and the value of
`self._current_merge` at return. -/
structure HCResult where
  result : Bool
  actions : List MergeAction
  current_merge : Option PendingMerge

/-- Embedding of `GitSync._handle_conflicts`.  With no conflicted files it
directly attempts `_complete_merge`; with conflicted files but no parseable
blocks it aborts and fails; otherwise it notifies the handler (when set),
waits, and either aborts on timeout or applies resolutions and completes. -/
def handle_conflicts (env : ConflictEnv) : HCResult :=
  if env.conflicting_files = [] then
    ⟨env.complete_ok, [MergeAction.complete_merge], none⟩
  else if collect_blocks env = [] then
    ⟨false, [MergeAction.abort_merge], none⟩
  else if env.resolved then
    ⟨env.complete_ok,
      (if env.has_handler then [MergeAction.notify_conflict] else [])
        ++ [MergeAction.apply_resolutions, MergeAction.complete_merge], none⟩
  else
    ⟨false,
      (if env.has_handler then [MergeAction.notify_conflict] else [])
        ++ [MergeAction.abort_merge], none⟩

/-- A conflict environment in which the merge reported a conflict but the
conflicted-file list is empty, and completing the merge succeeds. -/
def c2CounterEnv : ConflictEnv :=
  ⟨[], fun _ => none, fun _ _ => 0, true, true, true⟩

/-- C2 counterexample: with a reported conflict but an empty conflicted-file
list, `_handle_conflicts` does not abort and does not report failure — it
runs `_complete_merge` and here returns success, contradicting the claim that
this case aborts the merge and reports the cycle as failed. -/
theorem C2_counterexample_empty_list :
    (handle_conflicts c2CounterEnv).result = true
    ∧ MergeAction.abort_merge ∉ (handle_conflicts c2CounterEnv).actions
    ∧ (handle_conflicts c2CounterEnv).actions = [MergeAction.complete_merge] := by
  refine ⟨rfl, ?_, rfl⟩
  intro h
  simp [handle_conflicts, c2CounterEnv] at h

/-- C2 amended: whenever conflicted files are listed but no ConflictBlocks
are extracted from them (every file fails to parse or yields no blocks), the
engine aborts the merge and reports the cycle as failed; when the
conflicted-file list itself is empty, the engine instead attempts
`_complete_merge` directly and returns its outcome. -/
theorem C2_no_blocks_aborts (env : ConflictEnv)
    (hne : env.conflicting_files ≠ []) (hb : collect_blocks env = []) :
    handle_conflicts env = ⟨false, [MergeAction.abort_merge], none⟩ := by
  unfold handle_conflicts
  rw [if_neg hne, if_pos hb]

/-- A conflict environment with one conflicted file whose content holds no
conflict markers, witness input. -/
def c2wEnv : ConflictEnv :=
  ⟨["a.md".data], fun _ => some "hello world\n".data, fun _ _ => 0, true, true, true⟩

theorem c2w_no_blocks : collect_blocks c2wEnv = [] := by
  have hparse : parseConflictPairs "hello world\n".data = [] :=
    parseConflictPairs_eq_none (matchConflict_none (by decide))
  have hcb : collect_blocks c2wEnv
      = parse_conflicts (fun _ => 0) "hello world\n".data "a.md".data ++ [] := rfl
  rw [hcb, List.append_nil]
  unfold parse_conflicts
  rw [hparse]
  rfl

theorem C2_no_blocks_aborts_witness :
    collect_blocks c2wEnv = []
    ∧ handle_conflicts c2wEnv = ⟨false, [MergeAction.abort_merge], none⟩ :=
  ⟨c2w_no_blocks, C2_no_blocks_aborts c2wEnv (by decide) c2w_no_blocks⟩

/-- C3: when blocks were extracted and `wait_for_resolution` reports timeout,
`_handle_conflicts` invokes merge-abort exactly once, leaves
`_current_merge` cleared, and reports the pull as failed. -/
theorem C3_timeout_aborts (env : ConflictEnv)
    (hne : env.conflicting_files ≠ []) (hb : collect_blocks env ≠ [])
    (hr : env.resolved = false) :
    (handle_conflicts env).result = false
    ∧ (handle_conflicts env).actions.count MergeAction.abort_merge = 1
    ∧ (handle_conflicts env).current_merge = none := by
  unfold handle_conflicts
  rw [if_neg hne, if_neg hb, if_neg (by rw [hr]; simp)]
  refine ⟨rfl, ?_, rfl⟩
  split
  · decide
  · decide

/-- A one-block conflicted file, witness input. -/
def c3wL : List (RawBlock × List Char) :=
  [(⟨"ours\n".data, "theirs\n".data, "abc".data⟩, "bottom\n".data)]

/-- A conflict environment with one genuinely conflicted file and a timed-out
resolution wait, witness input. -/
def c3wEnv : ConflictEnv :=
  ⟨["a.md".data], fun _ => some (buildContent "top\n".data c3wL),
    fun _ _ => 0, true, false, true⟩

theorem c3w_blocks_ne : collect_blocks c3wEnv ≠ [] := by
  have hwf : WfBuild "top\n".data c3wL := by decide
  have hpairs := parseConflictPairs_build c3wL "top\n".data hwf.1 hwf.2
  have hcb : collect_blocks c3wEnv
      = parse_conflicts (fun _ => 0) (buildContent "top\n".data c3wL) "a.md".data ++ [] := rfl
  rw [hcb, List.append_nil]
  unfold parse_conflicts
  rw [hpairs]
  simp [mkBlocksFrom, c3wL]

theorem C3_timeout_aborts_witness :
    collect_blocks c3wEnv ≠ []
    ∧ (handle_conflicts c3wEnv).result = false
    ∧ (handle_conflicts c3wEnv).actions.count MergeAction.abort_merge = 1 :=
  ⟨c3w_blocks_ne,
    (C3_timeout_aborts c3wEnv (by decide) c3w_blocks_ne rfl).1,
    (C3_timeout_aborts c3wEnv (by decide) c3w_blocks_ne rfl).2.1⟩

/-! ## Remote authentication (embedding of `GitSync._get_auth_remote_url`). -/

/-- The scheme literal checked by `"https://" in remote_url`. -/
def httpsLit : List Char := "https://".data

/-- Python's substring containment test `needle in s`. -/
def containsSub (needle s : List Char) : Bool := (splitFirst needle s).isSome

/-- Python's `str.replace`: replace every non-overlapping occurrence of `old`
by `new`, scanning left to right.  (The source only calls it with the
nonempty literal `"https://"`; an empty `old` is returned unchanged so the
function is total.) -/
def pyReplace (old new : List Char) (s : List Char) : List Char :=
  if hold : old = [] then s
  else
    match h : splitFirst old s with
    | none => s
    | some (p, q) => p ++ new ++ pyReplace old new q
termination_by s.length
decreasing_by
  have hlen := congrArg List.length (splitFirst_sound h)
  rw [List.length_append, List.length_append] at hlen
  have : 0 < old.length := List.length_pos.mpr hold
  omega

theorem pyReplace_some {old s p q : List Char} (new : List Char) (hold : old ≠ [])
    (h : splitFirst old s = some (p, q)) :
    pyReplace old new s = p ++ new ++ pyReplace old new q := by
  rw [pyReplace, dif_neg hold]
  split
  · rename_i heq
    rw [h] at heq
    exact absurd heq (by simp)
  · rename_i p' q' heq
    rw [h] at heq
    simp only [Option.some.injEq, Prod.mk.injEq] at heq
    rw [heq.1, heq.2]

/-- Embedding of `GitSync._get_auth_remote_url` given the configured origin
URL and the `GITHUB_TOKEN` value (empty when unset): inject the token when a
token is configured and the URL contains `https://`; otherwise return the URL
unchanged. -/
def get_auth_remote_url (remote_url github_token : List Char) : List Char :=
  if github_token ≠ [] ∧ containsSub httpsLit remote_url = true then
    pyReplace httpsLit ("https://x-access-token:".data ++ github_token ++ ['@'])
      remote_url
  else remote_url

/-- Follows the spec's words: a remote URL is an HTTPS remote when it starts
with the `https://` scheme. -/
def specIsHttpsUrl (url : List Char) : Bool := isPre httpsLit url

/-- A non-HTTPS remote URL that contains `https://` later in its text. -/
def c9BadUrl : List Char := "ssh://host/https://x".data

/-- C9 counterexample: this remote URL is not an HTTPS URL, a token is
configured, yet `_get_auth_remote_url` does not pass it through unmodified —
the substring check rewrites the embedded occurrence — contradicting the
claim that non-HTTPS remotes are always passed through. -/
theorem C9_counterexample_non_https_modified :
    specIsHttpsUrl c9BadUrl = false
    ∧ get_auth_remote_url c9BadUrl "tok".data ≠ c9BadUrl := by
  constructor
  · decide
  · have hsplit : splitFirst httpsLit c9BadUrl = some ("ssh://host/".data, ['x']) := by
      decide
    have hrepl := pyReplace_some ("https://x-access-token:".data ++ "tok".data ++ ['@'])
      (by decide : httpsLit ≠ []) hsplit
    unfold get_auth_remote_url
    rw [if_pos ⟨by decide, by rw [containsSub, hsplit]; rfl⟩, hrepl]
    intro hcontra
    have := congrArg List.length hcontra
    simp [List.length_append, c9BadUrl] at this

/-- C9 amended: when no token is configured, or the URL does not contain
`https://` at all, the URL is passed through unmodified; when a token is
configured and the remote URL is an HTTPS URL, the transport URL starts with
`https://x-access-token:`, the token, and `@` — the bearer token injected
into the userinfo component of the authority.  (URLs that merely contain
`https://` without being HTTPS URLs are also rewritten, which is what the
counterexample exhibits.) -/
theorem C9_auth_url (url token : List Char) :
    ((token = [] ∨ containsSub httpsLit url = false) → get_auth_remote_url url token = url)
    ∧ (token ≠ [] → specIsHttpsUrl url = true →
        ∃ rest, get_auth_remote_url url token
          = "https://x-access-token:".data ++ token ++ ['@'] ++ rest) := by
  constructor
  · intro h
    unfold get_auth_remote_url
    rw [if_neg]
    intro ⟨h1, h2⟩
    cases h with
    | inl h => exact h1 h
    | inr h => rw [h] at h2; exact Bool.false_ne_true h2
  · intro htok hpre
    unfold specIsHttpsUrl at hpre
    rw [isPre_iff_take] at hpre
    have hurl : url = httpsLit ++ url.drop httpsLit.length := by
      conv_lhs => rw [← List.take_append_drop httpsLit.length url]
      rw [hpre]
    have hsplit : splitFirst httpsLit url = some ([], url.drop httpsLit.length) := by
      have := splitFirst_append (by decide : httpsLit ≠ []) []
        (url.drop httpsLit.length) (fun i hi => absurd hi (by simp))
      rw [List.nil_append] at this
      rw [hurl] at this ⊢
      exact this
    refine ⟨pyReplace httpsLit ("https://x-access-token:".data ++ token ++ ['@'])
      (url.drop httpsLit.length), ?_⟩
    unfold get_auth_remote_url
    rw [if_pos ⟨htok, by rw [containsSub, hsplit]; rfl⟩]
    rw [pyReplace_some _ (by decide : httpsLit ≠ []) hsplit]
    simp [List.append_assoc]

theorem C9_auth_url_witness :
    get_auth_remote_url "https://h/r.git".data [] = "https://h/r.git".data
    ∧ ∃ rest, get_auth_remote_url "https://h/r.git".data "tok".data
        = "https://x-access-token:".data ++ "tok".data ++ ['@'] ++ rest :=
  ⟨(C9_auth_url "https://h/r.git".data []).1 (Or.inl rfl),
    (C9_auth_url "https://h/r.git".data "tok".data).2 (by decide) (by decide)⟩
